import Mathlib

/-!
Verification of the sweep alignment and combination pipeline and the
radiation-pattern metric engine of the antenna data-processing repository.

The structural parts of the pipeline (sweep-break detection, splitting,
leading-repeat deduplication, duplicate-angle averaging, interpolation
dispatch) are embedded over `ℚ` so that they are executable; the analytic
parts (dB conversions, averaging in the linear power domain, Pythagorean
field combination, efficiency, power floor) are embedded over `ℝ`.

Source correspondence (the same pipeline appears verbatim in
`process_all_csv.py` inside `process_all_csvs` and in
`streamlit_process_all_csv.py` inside `process_csv_data`; the metric engine
is `calculate_hpbw` / `calculate_polarization_metrics` in
`streamlit_antenna_gui_test.py`, and the same power conversion appears in
`antenna_gui.py` in `create_polar_plot`).
-/

namespace Antenna

/-- First differences test of the source, `np.where(np.diff(angles) < 0)[0]`:
the list of indices `i` with `angles[i+1] < angles[i]`, in increasing order. -/
def brkIndices (angles : List ℚ) : List ℕ :=
  (List.range (angles.length - 1)).filter
    (fun i => decide (angles.getD (i + 1) 0 < angles.getD i 0))

/-- Sweep split of the source: take the first break index `brk` (if any) and
partition both columns into `[0..brk]` and `[brk+1..]`.  Mirrors
`ang1 = angles[:brk+1]; f1 = f[:brk+1]; ang2 = angles[brk+1:]; f2 = f[brk+1:]`
guarded by `if len(brk_indices) == 0: skip`. -/
def splitSweeps (angles field : List ℚ) :
    Option ((List ℚ × List ℚ) × (List ℚ × List ℚ)) :=
  match (brkIndices angles).head? with
  | none => none
  | some brk =>
      some ((angles.take (brk + 1), field.take (brk + 1)),
            (angles.drop (brk + 1), field.drop (brk + 1)))

/-- Leading-repeat deduplication mask of the source loop
`keep = np.ones(len(ang2)); for k in range(1, min(5, len(ang2))):
if ang2[k] == ang2[k-1] and f2[k] == f2[k-1]: keep[k] = False`.
Entry `k` of the mask is `false` exactly when the loop clears it. -/
def dedupKeep (ang f : List ℚ) : List Bool :=
  (List.range ang.length).map (fun k =>
    if 1 ≤ k ∧ k < min 5 ang.length
        ∧ ang.getD k 0 = ang.getD (k - 1) 0 ∧ f.getD k 0 = f.getD (k - 1) 0
    then false else true)

/-- Boolean-mask selection, `ang2[keep]` on a numpy array. -/
def applyKeep (l : List ℚ) (keep : List Bool) : List ℚ :=
  (l.zip keep).filterMap (fun q => if q.2 then some q.1 else none)

/-- Arithmetic mean of a list of rationals (mean of an empty list is 0,
matching the junk-in branch never taken by the pipeline). -/
def listMeanQ (l : List ℚ) : ℚ := l.sum / l.length

/-- Duplicate-angle averaging of the source,
`df2.groupby(angle).mean().reset_index()`: one row per distinct angle, in
increasing angle order (pandas sorts group keys), whose field value is the
arithmetic mean of all fields recorded at that angle. -/
def groupMean (pairs : List (ℚ × ℚ)) : List (ℚ × ℚ) :=
  (((pairs.map Prod.fst).dedup).insertionSort (fun a b => a ≤ b)).map
    (fun a => (a, listMeanQ ((pairs.filter (fun q => q.1 = a)).map Prod.snd)))

/-- Segment index used by the linear interpolant: scipy `interp1d`
computes `searchsorted(x, x_new)` clipped to `[1, len(x) - 1]` and
interpolates on the segment below that index. -/
def segIdx (xs : List ℚ) (x : ℚ) : ℕ :=
  min (max ((xs.filter (fun t => decide (t < x))).length) 1) (xs.length - 1)

/-- Piecewise-linear interpolation with end-segment extrapolation, the
semantics of `scipy.interpolate.interp1d(x, y, kind='linear',
fill_value='extrapolate')` applied at one point, for strictly increasing
`xs` with at least two entries. -/
def interpAt (xs ys : List ℚ) (x : ℚ) : ℚ :=
  let hi := segIdx xs x
  let lo := hi - 1
  let x0 := xs.getD lo 0
  let x1 := xs.getD hi 0
  let y0 := ys.getD lo 0
  let y1 := ys.getD hi 0
  y0 + (y1 - y0) * (x - x0) / (x1 - x0)

/-- Alignment step of the source: deduplicate leading repeats of the second
sweep, average duplicate angles, and resample onto the target grid.
`interp1d(..., kind='linear')` raises `ValueError` when given fewer than two
data points, which the per-file handler catches; that failure is the `none`
branch. -/
def alignSecond (ang2 f2 targ : List ℚ) : Option (List ℚ) :=
  if (groupMean ((applyKeep ang2 (dedupKeep ang2 f2)).zip
      (applyKeep f2 (dedupKeep ang2 f2)))).length < 2 then none
  else some (targ.map (interpAt
    ((groupMean ((applyKeep ang2 (dedupKeep ang2 f2)).zip
        (applyKeep f2 (dedupKeep ang2 f2)))).map Prod.fst)
    ((groupMean ((applyKeep ang2 (dedupKeep ang2 f2)).zip
        (applyKeep f2 (dedupKeep ang2 f2)))).map Prod.snd)))

/-- Error taxonomy of the per-file pipeline: the split-stage skip
(`No clear sweep break found`) and the alignment-stage failure (fewer than
two data points for interpolation). -/
inductive ProcError where
  | noBreakFound : ProcError
  | insufficientData : ProcError
deriving DecidableEq, Repr

/-- Per-file pipeline through the alignment stage: split the raw two-column
table at the sweep break, then resample the second sweep onto the first
sweep's angle grid.  On success it returns `(ang1, f1, f2_on_1)`; the
remaining step of the source (the Pythagorean field combination) is the
real-valued `combineFields` below. -/
def processCsvData (angles field : List ℚ) :
    Except ProcError (List ℚ × List ℚ × List ℚ) :=
  match splitSweeps angles field with
  | none => .error .noBreakFound
  | some ((ang1, f1), (ang2, f2)) =>
      match alignSecond ang2 f2 ang1 with
      | none => .error .insufficientData
      | some f2on1 => .ok (ang1, f1, f2on1)

/-- Batch driver: each input file is processed independently, and a per-file
failure is recorded for that file only (the source loop catches the
exception and continues with the next file). -/
def processBatch (inputs : List (List ℚ × List ℚ)) :
    List (Except ProcError (List ℚ × List ℚ × List ℚ)) :=
  inputs.map (fun q => processCsvData q.1 q.2)

/-- Spec-style deduplication scan over the tail of the second sweep,
tracking the previous kept sample: a sample at position `k` (counted from
the start of the sweep, `k` at least 1) is dropped exactly when `k` lies in
the scan window and both its components equal the previous kept sample. -/
def windowKeepGo (w : ℕ) : (ℚ × ℚ) → ℕ → List (ℚ × ℚ) → List Bool
  | _, _, [] => []
  | prev, k, q :: rest =>
    if k ≤ w ∧ q.1 = prev.1 ∧ q.2 = prev.2 then
      false :: windowKeepGo w prev (k + 1) rest
    else
      true :: windowKeepGo w q (k + 1) rest

/-- Spec-style deduplication mask with scan window `1..w`: the first sample
is always kept, and later samples are compared against the previous kept
sample.  The spec states the window as `w = min 5 (len - 1)`; the code's
loop realises `w = min 4 (len - 1)`. -/
def windowKeep (w : ℕ) (ang f : List ℚ) : List Bool :=
  match ang.zip f with
  | [] => []
  | q :: rest => true :: windowKeepGo w q 1 rest

/-- Sign function of numpy, `np.sign`: 1 for positive, -1 for negative,
0 for zero. -/
def qsign (x : ℚ) : ℤ := if 0 < x then 1 else if x < 0 then -1 else 0

/-- First-occurrence argmax of `np.argmax`: the fold keeps the current best
index unless a strictly larger value appears. -/
def argmaxIdx (P : List ℚ) : ℕ :=
  (List.range P.length).foldl
    (fun best i => if P.getD best 0 < P.getD i 0 then i else best) 0

/-- Angle at the index of maximum power, `main_lobe_angle` of the source. -/
def peakAngle (angles P : List ℚ) : ℚ := angles.getD (argmaxIdx P) 0

/-- Half-power crossings of `calculate_hpbw`:
`np.where(np.diff(np.sign(P_dBm - half_power_val)))[0]` with
`half_power_val = max(P_dBm) - 3`: the indices `i` where the sign of the
centered power curve changes between samples `i` and `i+1`. -/
def crossIdx (P : List ℚ) : List ℕ :=
  (List.range (P.length - 1)).filter (fun i =>
    decide (qsign (P.getD (i + 1) 0 - (P.getD (argmaxIdx P) 0 - 3))
      ≠ qsign (P.getD i 0 - (P.getD (argmaxIdx P) 0 - 3))))

/-- Circular-distance sort key of the source,
`min(abs(angle - peak), 360 - abs(angle - peak))`. -/
def circKey (angles P : List ℚ) (i : ℕ) : ℚ :=
  min |angles.getD i 0 - peakAngle angles P|
    (360 - |angles.getD i 0 - peakAngle angles P|)

/-- Stable sort of the crossing indices by circular distance to the peak,
the `sorted(intersections, key=...)` call (Python sort is stable, as is
insertion sort). -/
def sortedCross (angles P : List ℚ) : List ℕ :=
  (crossIdx P).insertionSort
    (fun i j => circKey angles P i ≤ circKey angles P j)

/-- The `calculate_hpbw` function of the source: `None` when fewer than two
half-power crossings exist, otherwise the absolute angular difference of the
two crossings closest to the peak, folded onto the minor arc
(`hpbw if hpbw < 180 else 360 - hpbw`). -/
def calculateHpbw (angles P : List ℚ) : Option ℚ :=
  if (crossIdx P).length < 2 then none
  else if (sortedCross angles P).length < 2 then none
  else if |angles.getD ((sortedCross angles P).getD 0 0) 0
      - angles.getD ((sortedCross angles P).getD 1 0) 0| < 180 then
    some |angles.getD ((sortedCross angles P).getD 0 0) 0
      - angles.getD ((sortedCross angles P).getD 1 0) 0|
  else
    some (360 - |angles.getD ((sortedCross angles P).getD 0 0) 0
      - angles.getD ((sortedCross angles P).getD 1 0) 0|)

/-- Linear power of a dBm value, `P_linear = 10**(P_dBm/10)/1000` in watts
(the source works elementwise over the power array). -/
noncomputable def pLinear (p : ℝ) : ℝ := 10 ^ (p / 10) / 1000

/-- Arithmetic mean of a list of reals, `np.mean`. -/
noncomputable def listMeanR (l : List ℝ) : ℝ := l.sum / l.length

/-- Average power in the linear domain,
`avg_power_linear = np.mean(P_linear)` of `calculate_polarization_metrics`. -/
noncomputable def avgPowerLinear (P : List ℝ) : ℝ := listMeanR (P.map pLinear)

/-- Average power re-expressed in dBm,
`avg_dBm = 10*np.log10(avg_power_linear*1000)`. -/
noncomputable def avgDbm (P : List ℝ) : ℝ :=
  10 * Real.logb 10 (avgPowerLinear P * 1000)

/-- dBµV/m to linear V/m, `V = 10**((dB - 120)/20)`, shared by the field
combiner and the power conversion (`E_V_per_m` of the source). -/
noncomputable def dBuVmToV (d : ℝ) : ℝ := 10 ^ ((d - 120) / 20)

/-- FieldCombiner of the source: elementwise
`total_dB = 20*log10(sqrt(V1**2 + V2**2)) + 120` on two equal-length field
columns in dBµV/m. -/
noncomputable def combineFields (f1 f2 : List ℝ) : List ℝ :=
  (f1.zip f2).map (fun q =>
    20 * Real.logb 10 (Real.sqrt (dBuVmToV q.1 ^ 2 + dBuVmToV q.2 ^ 2)) + 120)

/-- Linear isotropic reference power,
`P_iso_linear = 10**(iso_power_dBm/10)/1000`. -/
noncomputable def isoLinearOfDbm (iso : ℝ) : ℝ := 10 ^ (iso / 10) / 1000

/-- Efficiency guard of the source:
`efficiency = (avg_power_linear/P_iso_linear)*100 if P_iso_linear > 0
else 0`. -/
noncomputable def efficiencyPct (avgLin pIsoLin : ℝ) : ℝ :=
  if 0 < pIsoLin then avgLin / pIsoLin * 100 else 0

/-- Efficiency in dB with the explicit negative-infinity fallback of the
source, `eff_dB = 10*np.log10(efficiency/100) if efficiency > 0 else
-np.inf`; the IEEE value `-inf` is modelled as the bottom element of the
extended reals. -/
noncomputable def efficiencyDb (eff : ℝ) : EReal :=
  if 0 < eff then ((10 * Real.logb 10 (eff / 100) : ℝ) : EReal) else ⊥

/-- Raw radiated power before the floor,
`P_watts = (E_V_per_m**2 * 3**2)/30`. -/
noncomputable def pWattsRaw (f : ℝ) : ℝ := dBuVmToV f ^ 2 * 3 ^ 2 / 30

/-- Floored power of the source, `P_watts[P_watts < 1e-15] = 1e-15`. -/
noncomputable def pWatts (f : ℝ) : ℝ :=
  if pWattsRaw f < 1e-15 then 1e-15 else pWattsRaw f

/-- Power in dBm, `P_dBm = 10*np.log10(P_watts*1000)`. -/
noncomputable def pDbm (f : ℝ) : ℝ := 10 * Real.logb 10 (pWatts f * 1000)

/-- Power series of the metric engine: elementwise conversion of a field
column (dBµV/m) to power (dBm), as in `calculate_polarization_metrics` and
`create_polar_plot`. -/
noncomputable def powerSeries (field : List ℝ) : List ℝ := field.map pDbm

/-- Helper: the first element of `(List.range n).filter p` is the least index
satisfying `p`. -/
theorem head?_filter_range (p : ℕ → Bool) (n k : ℕ) (hk : k < n)
    (hpk : p k = true) (hmin : ∀ j, j < k → p j = false) :
    ((List.range n).filter p).head? = some k := by
  induction n with
  | zero => omega
  | succ n ih =>
    rw [List.range_succ, List.filter_append]
    rcases Nat.lt_or_ge k n with h | h
    · have hx := ih h
      cases hfil : (List.range n).filter p with
      | nil => rw [hfil] at hx; simp at hx
      | cons a t =>
        rw [hfil] at hx
        simp only [List.head?_cons, Option.some.injEq] at hx
        subst hx
        simp
    · have hkn : k = n := by omega
      have hnil : (List.range n).filter p = [] := by
        refine List.filter_eq_nil_iff.mpr ?_
        intro a ha
        simp only [List.mem_range] at ha
        simp [hmin a (by omega)]
      rw [hnil, ← hkn]
      simp [hpk]

/-- C1: for a raw angle sequence of length at least 2 with exactly one
decreasing consecutive step, at position `p`, the split succeeds with the
earliest (hence the unique) break, returning `first = angle[0..p]` of length
`p+1` and `second = angle[p+1..]` of length `n-p-1`, partitioning the field
column identically, and concatenating the two angle parts restores the
original sequence. -/
theorem split_single_descent (angles field : List ℚ) (p : ℕ)
    (hn : 2 ≤ angles.length) (hflen : field.length = angles.length)
    (hp : p + 1 < angles.length)
    (hdec : angles.getD (p + 1) 0 < angles.getD p 0)
    (hother : ∀ i, i < angles.length - 1 → i ≠ p →
      angles.getD i 0 ≤ angles.getD (i + 1) 0) :
    splitSweeps angles field =
      some ((angles.take (p + 1), field.take (p + 1)),
            (angles.drop (p + 1), field.drop (p + 1)))
    ∧ (angles.take (p + 1)).length = p + 1
    ∧ (angles.drop (p + 1)).length = angles.length - (p + 1)
    ∧ (field.take (p + 1)).length = p + 1
    ∧ (field.drop (p + 1)).length = angles.length - (p + 1)
    ∧ angles.take (p + 1) ++ angles.drop (p + 1) = angles
    ∧ field.take (p + 1) ++ field.drop (p + 1) = field := by
  have hhead : (brkIndices angles).head? = some p := by
    refine head?_filter_range _ _ p (by omega) ?_ ?_
    · simp only [decide_eq_true_eq]
      exact hdec
    · intro j hj
      have hle : angles.getD j 0 ≤ angles.getD (j + 1) 0 :=
        hother j (by omega) (by omega)
      simp only [decide_eq_false_iff_not]
      exact not_lt.mpr hle
  refine ⟨?_, ?_, ?_, ?_, ?_, ?_, ?_⟩
  · unfold splitSweeps
    rw [hhead]
  · rw [List.length_take]; omega
  · rw [List.length_drop]
  · rw [List.length_take]; omega
  · rw [List.length_drop]; omega
  · exact List.take_append_drop _ _
  · exact List.take_append_drop _ _

/-- Witness for C1 at the concrete input `angles = [0, 10, 5, 7]`,
`field = [1, 2, 3, 4]`, whose unique descent is at `p = 1`. -/
theorem split_single_descent_witness :
    splitSweeps [0, 10, 5, 7] [1, 2, 3, 4] =
      some ((([0, 10, 5, 7] : List ℚ).take 2, ([1, 2, 3, 4] : List ℚ).take 2),
            (([0, 10, 5, 7] : List ℚ).drop 2, ([1, 2, 3, 4] : List ℚ).drop 2))
    ∧ (([0, 10, 5, 7] : List ℚ).take 2).length = 2
    ∧ (([0, 10, 5, 7] : List ℚ).drop 2).length = ([0, 10, 5, 7] : List ℚ).length - 2
    ∧ (([1, 2, 3, 4] : List ℚ).take 2).length = 2
    ∧ (([1, 2, 3, 4] : List ℚ).drop 2).length = ([0, 10, 5, 7] : List ℚ).length - 2
    ∧ ([0, 10, 5, 7] : List ℚ).take 2 ++ ([0, 10, 5, 7] : List ℚ).drop 2 = [0, 10, 5, 7]
    ∧ ([1, 2, 3, 4] : List ℚ).take 2 ++ ([1, 2, 3, 4] : List ℚ).drop 2 = [1, 2, 3, 4] :=
  split_single_descent [0, 10, 5, 7] [1, 2, 3, 4] 1 (by decide) (by decide)
    (by decide) (by decide) (by decide)

/-- C6: when the angle sequence never decreases, the split fails, the
pipeline reports `NoBreakFound` and produces no processed dataset, and a
batch run is unaffected at every other position: entry `j` of the batch
output depends only on input `j`. -/
theorem split_monotone_fails (angles field : List ℚ)
    (hmono : ∀ i, i < angles.length - 1 →
      angles.getD i 0 ≤ angles.getD (i + 1) 0) :
    splitSweeps angles field = none
    ∧ processCsvData angles field = .error .noBreakFound
    ∧ ∀ (inputs : List (List ℚ × List ℚ)) (j : ℕ), j < inputs.length →
        (processBatch inputs).getD j (.error .noBreakFound) =
          processCsvData (inputs.getD j ([], [])).1 (inputs.getD j ([], [])).2 := by
  have hnil : brkIndices angles = [] := by
    refine List.filter_eq_nil_iff.mpr ?_
    intro i hi
    simp only [List.mem_range] at hi
    simp only [decide_eq_true_eq]
    exact not_lt.mpr (hmono i hi)
  have hsplit : splitSweeps angles field = none := by
    unfold splitSweeps
    rw [hnil]
    rfl
  refine ⟨hsplit, ?_, ?_⟩
  · unfold processCsvData
    rw [hsplit]
  · intro inputs j hj
    unfold processBatch
    rw [List.getD_eq_getElem _ _ (by simpa using hj), List.getElem_map,
      List.getD_eq_getElem _ _ hj]

/-- Witness for C6 at the strictly increasing input `angles = [0, 1, 2]`,
`field = [5, 6, 7]`. -/
theorem split_monotone_fails_witness :
    splitSweeps [0, 1, 2] [5, 6, 7] = none
    ∧ processCsvData [0, 1, 2] [5, 6, 7] = .error .noBreakFound
    ∧ ∀ (inputs : List (List ℚ × List ℚ)) (j : ℕ), j < inputs.length →
        (processBatch inputs).getD j (.error .noBreakFound) =
          processCsvData (inputs.getD j ([], [])).1 (inputs.getD j ([], [])).2 :=
  split_monotone_fails [0, 1, 2] [5, 6, 7] (by decide)

/-- Characterization of the spec-style scan: entry `i` of the mask produced
from offset `k` with previous kept sample `prev` compares element `i` of the
remaining list with its immediate predecessor in `prev :: l`.  The previous
kept sample always coincides with the immediate predecessor, because a
sample is only ever dropped when it equals the sample before it. -/
theorem windowKeepGo_eq (w : ℕ) (l : List (ℚ × ℚ)) :
    ∀ (prev : ℚ × ℚ) (k : ℕ),
    windowKeepGo w prev k l =
      (List.range l.length).map (fun i =>
        if k + i ≤ w ∧ (prev :: l).getD (i + 1) (0, 0) = (prev :: l).getD i (0, 0)
        then false else true) := by
  induction l with
  | nil => intro prev k; rfl
  | cons q rest ih =>
    intro prev k
    rw [windowKeepGo, List.length_cons, List.range_succ_eq_map, List.map_cons,
      List.map_map]
    by_cases hc : k ≤ w ∧ q.1 = prev.1 ∧ q.2 = prev.2
    · have hq : q = prev := Prod.ext hc.2.1 hc.2.2
      rw [if_pos hc]
      refine congrArg₂ List.cons ?_ ?_
      · rw [if_pos]
        refine ⟨by omega, ?_⟩
        simp only [List.getD_cons_succ, List.getD_cons_zero]
        exact hq
      · rw [← hq, ih q (k + 1)]
        refine List.map_congr_left ?_
        intro i _
        simp only [Function.comp_apply, List.getD_cons_succ]
        have hk : k + (i + 1) ≤ w ↔ k + 1 + i ≤ w := by omega
        rw [if_congr (and_congr hk Iff.rfl) rfl rfl]
    · rw [if_neg hc]
      refine congrArg₂ List.cons ?_ ?_
      · rw [if_neg]
        intro hcon
        refine hc ⟨by omega, ?_⟩
        simp only [List.getD_cons_succ, List.getD_cons_zero] at hcon
        exact ⟨congrArg Prod.fst hcon.2, congrArg Prod.snd hcon.2⟩
      · rw [ih q (k + 1)]
        refine List.map_congr_left ?_
        intro i _
        simp only [Function.comp_apply, List.getD_cons_succ]
        have hk : k + (i + 1) ≤ w ↔ k + 1 + i ≤ w := by omega
        rw [if_congr (and_congr hk Iff.rfl) rfl rfl]

/-- Helper: componentwise read of a zipped list. -/
theorem getD_zip (l1 l2 : List ℚ) (j : ℕ) (h1 : j < l1.length)
    (h2 : j < l2.length) :
    (l1.zip l2).getD j (0, 0) = (l1.getD j 0, l2.getD j 0) := by
  rw [List.getD_eq_getElem _ _ (by rw [List.length_zip]; omega),
    List.getD_eq_getElem _ _ h1, List.getD_eq_getElem _ _ h2]
  exact List.getElem_zip

/-- C3 (amended): the code's deduplication mask drops a sample at position
`k` if and only if `k` lies in the window `1..min 4 (len - 1)` (that is,
the code examines the first `min 4 (len - 1)` index transitions, not
`min 5 (len - 1)` as the spec states) and both components equal the
previous kept sample; a repeated pair beyond that window is never removed. -/
theorem dedupKeep_eq_windowKeep (ang f : List ℚ) (hlen : ang.length = f.length) :
    dedupKeep ang f = windowKeep (min 4 (ang.length - 1)) ang f := by
  cases ang with
  | nil => cases f with | nil => rfl | cons b fs => rfl
  | cons a angs =>
    cases f with
    | nil => exact absurd hlen (by simp)
    | cons b fs =>
      have hlen2 : angs.length = fs.length := by simpa using hlen
      have hw : windowKeep (min 4 ((a :: angs).length - 1)) (a :: angs) (b :: fs)
          = true :: windowKeepGo (min 4 ((a :: angs).length - 1)) (a, b) 1
              (angs.zip fs) := rfl
      unfold dedupKeep
      rw [hw, windowKeepGo_eq]
      have hzl : (angs.zip fs).length = angs.length := by
        rw [List.length_zip]; omega
      rw [hzl, List.length_cons, List.range_succ_eq_map, List.map_cons,
        List.map_map]
      refine congrArg₂ List.cons ?_ ?_
      · simp
      · refine List.map_congr_left ?_
        intro i hi
        simp only [List.mem_range] at hi
        have hb1 : i + 1 < (a :: angs).length := by
          simp only [List.length_cons]; omega
        have hb2 : i + 1 < (b :: fs).length := by
          simp only [List.length_cons]; omega
        have hb3 : i < (a :: angs).length := by
          simp only [List.length_cons]; omega
        have hb4 : i < (b :: fs).length := by
          simp only [List.length_cons]; omega
        simp only [Function.comp_apply, Nat.add_sub_cancel]
        have e1 : (((a, b) :: angs.zip fs) : List (ℚ × ℚ))
            = (a :: angs).zip (b :: fs) := rfl
        rw [e1, getD_zip _ _ _ hb1 hb2, getD_zip _ _ _ hb3 hb4]
        refine if_congr ?_ rfl rfl
        rw [Prod.mk.injEq]
        have hlc : (a :: angs).length = angs.length + 1 := by simp
        constructor
        · rintro ⟨-, h2, h3, h4⟩
          rw [lt_min_iff] at h2
          refine ⟨le_min_iff.mpr ⟨by omega, by omega⟩, h3, h4⟩
        · rintro ⟨h1, h3, h4⟩
          rw [le_min_iff] at h1
          refine ⟨by omega, lt_min_iff.mpr ⟨by omega, by omega⟩, h3, h4⟩

/-- Witness for the amended C3 at a length-7 second sweep. -/
theorem dedupKeep_eq_windowKeep_witness :
    dedupKeep [0, 1, 1, 3, 4, 4, 6] [9, 9, 9, 9, 7, 7, 5] =
      windowKeep (min 4 (([0, 1, 1, 3, 4, 4, 6] : List ℚ).length - 1))
        [0, 1, 1, 3, 4, 4, 6] [9, 9, 9, 9, 7, 7, 5] :=
  dedupKeep_eq_windowKeep [0, 1, 1, 3, 4, 4, 6] [9, 9, 9, 9, 7, 7, 5] (by decide)

/-- Counterexample to C3 as stated: with the spec's window
`min 5 (len - 1)`, the sample at position 5 of
`ang = [0, 1, 2, 3, 4, 4]`, `f = [9, 9, 9, 9, 7, 7]` exactly repeats the
sample at position 4 and lies inside the claimed window, yet the code's
loop (which only scans `k` in `range(1, min(5, len))`, positions 1..4)
keeps it. -/
theorem dedup_window_counterexample :
    dedupKeep [0, 1, 2, 3, 4, 4] [9, 9, 9, 9, 7, 7] ≠
      windowKeep (min 5 (([0, 1, 2, 3, 4, 4] : List ℚ).length - 1))
        [0, 1, 2, 3, 4, 4] [9, 9, 9, 9, 7, 7]
    ∧ ([0, 1, 2, 3, 4, 4] : List ℚ).getD 5 0 = ([0, 1, 2, 3, 4, 4] : List ℚ).getD 4 0
    ∧ ([9, 9, 9, 9, 7, 7] : List ℚ).getD 5 0 = ([9, 9, 9, 9, 7, 7] : List ℚ).getD 4 0
    ∧ 5 ≤ min 5 (([0, 1, 2, 3, 4, 4] : List ℚ).length - 1)
    ∧ (dedupKeep [0, 1, 2, 3, 4, 4] [9, 9, 9, 9, 7, 7]).getD 5 false = true := by
  decide

/-- Helper: the averaged table has one row per distinct angle. -/
theorem length_groupMean (pairs : List (ℚ × ℚ)) :
    (groupMean pairs).length = ((pairs.map Prod.fst).dedup).length := by
  unfold groupMean
  rw [List.length_map, List.length_insertionSort]

/-- Helper: mask selection recursion. -/
theorem applyKeep_cons (a : ℚ) (l : List ℚ) (k : Bool) (ks : List Bool) :
    applyKeep (a :: l) (k :: ks) = (if k then [a] else []) ++ applyKeep l ks := by
  cases k <;> simp [applyKeep, List.filterMap_cons]

/-- Helper: selecting two equal-length lists with the same mask yields
equal-length results. -/
theorem applyKeep_length_eq (l1 : List ℚ) :
    ∀ (l2 : List ℚ) (keep : List Bool), l1.length = l2.length →
    (applyKeep l1 keep).length = (applyKeep l2 keep).length := by
  induction l1 with
  | nil =>
    intro l2 keep h
    cases l2 with
    | nil => rfl
    | cons b l2s => simp at h
  | cons a l1s ih =>
    intro l2 keep h
    cases l2 with
    | nil => simp at h
    | cons b l2s =>
      cases keep with
      | nil => rfl
      | cons k ks =>
        have hs : l1s.length = l2s.length := by simpa using h
        rw [applyKeep_cons, applyKeep_cons, List.length_append,
          List.length_append, ih l2s ks hs]
        cases k <;> rfl

/-- Helper: mask selection never lengthens a list. -/
theorem applyKeep_length_le (l : List ℚ) (keep : List Bool) :
    (applyKeep l keep).length ≤ l.length := by
  unfold applyKeep
  calc (List.filterMap _ (l.zip keep)).length
      ≤ (l.zip keep).length := List.length_filterMap_le _ _
    _ ≤ l.length := by rw [List.length_zip]; omega

/-- C7: when fewer than two distinct angle values survive the leading-repeat
deduplication of the second sweep (so that, after duplicate-angle
averaging, fewer than two data points reach the interpolant), the alignment
step fails, no resampled field series is produced, and the pipeline reports
`InsufficientData` for that one input. -/
theorem align_insufficient (angles field ang1 f1 ang2 f2 : List ℚ)
    (hlen : angles.length = field.length)
    (hsplit : splitSweeps angles field = some ((ang1, f1), (ang2, f2)))
    (hfew : ((applyKeep ang2 (dedupKeep ang2 f2)).dedup).length < 2) :
    alignSecond ang2 f2 ang1 = none
    ∧ processCsvData angles field = .error .insufficientData := by
  have hsplit0 := hsplit
  unfold splitSweeps at hsplit
  have hlf2 : ang2.length = f2.length := by
    cases hbrk : (brkIndices angles).head? with
    | none => rw [hbrk] at hsplit; exact absurd hsplit (by simp)
    | some brk =>
      rw [hbrk] at hsplit
      simp only [Option.some.injEq, Prod.mk.injEq] at hsplit
      obtain ⟨⟨he1, he2⟩, he3, he4⟩ := hsplit
      rw [← he3, ← he4, List.length_drop, List.length_drop, hlen]
  have hkeep : (applyKeep ang2 (dedupKeep ang2 f2)).length
      = (applyKeep f2 (dedupKeep ang2 f2)).length :=
    applyKeep_length_eq ang2 f2 (dedupKeep ang2 f2) hlf2
  have hfst : ((applyKeep ang2 (dedupKeep ang2 f2)).zip
        (applyKeep f2 (dedupKeep ang2 f2))).map Prod.fst
      = applyKeep ang2 (dedupKeep ang2 f2) :=
    List.map_fst_zip _ _ (le_of_eq hkeep)
  have halign : alignSecond ang2 f2 ang1 = none := by
    unfold alignSecond
    rw [if_pos]
    rw [length_groupMean, hfst]
    exact hfew
  refine ⟨halign, ?_⟩
  simp only [processCsvData, hsplit0, halign]

/-- Witness for C7: `angles = [0, 10, 5, 5]`, `field = [1, 2, 3, 3]` splits
with second sweep `([5, 5], [3, 3])`, which deduplicates to the single
distinct angle 5. -/
theorem align_insufficient_witness :
    alignSecond [5, 5] [3, 3] [0, 10] = none
    ∧ processCsvData [0, 10, 5, 5] [1, 2, 3, 3] = .error .insufficientData :=
  align_insufficient [0, 10, 5, 5] [1, 2, 3, 3] [0, 10] [1, 2] [5, 5] [3, 3]
    (by decide) (by decide) (by decide)

/-- C8 (amended): a second sweep with fewer than two samples (length 1 or 0)
fails the alignment step — `interp1d(kind='linear')` requires at least two
data points and raises, which the per-file handler catches as a per-input
failure — rather than resampling by nearest-value extrapolation. -/
theorem align_short_second (ang2 f2 targ : List ℚ) (h : ang2.length ≤ 1) :
    alignSecond ang2 f2 targ = none := by
  unfold alignSecond
  rw [if_pos]
  rw [length_groupMean]
  calc ((((applyKeep ang2 (dedupKeep ang2 f2)).zip
        (applyKeep f2 (dedupKeep ang2 f2))).map Prod.fst).dedup).length
      ≤ (((applyKeep ang2 (dedupKeep ang2 f2)).zip
        (applyKeep f2 (dedupKeep ang2 f2))).map Prod.fst).length :=
        (List.dedup_sublist _).length_le
    _ = ((applyKeep ang2 (dedupKeep ang2 f2)).zip
        (applyKeep f2 (dedupKeep ang2 f2))).length := List.length_map _ _
    _ ≤ (applyKeep ang2 (dedupKeep ang2 f2)).length := by
        rw [List.length_zip]; omega
    _ ≤ ang2.length := applyKeep_length_le _ _
    _ < 2 := by omega

/-- Witness for the amended C8 at the single-sample second sweep produced
from `angles = [0, 10, 5]`, `field = [1, 2, 3]`. -/
theorem align_short_second_witness :
    alignSecond [5] [3] [0, 10] = none :=
  align_short_second [5] [3] [0, 10] (by decide)

/-- Counterexample to C8 as stated: for `angles = [0, 10, 5]`,
`field = [1, 2, 3]` the split yields a second sweep with exactly one sample
`(5, 3)`, and the alignment step fails with `InsufficientData` instead of
returning the single field value 3 at every target angle. -/
theorem align_single_sample_counterexample :
    splitSweeps [0, 10, 5] [1, 2, 3] = some (([0, 10], [1, 2]), ([5], [3]))
    ∧ alignSecond [5] [3] [0, 10] ≠ some [3, 3]
    ∧ alignSecond [5] [3] [0, 10] = none
    ∧ processCsvData [0, 10, 5] [1, 2, 3] = .error .insufficientData :=
  ⟨rfl, by decide, rfl, rfl⟩

/-- Helper: the argmax fold stays below `n` when started below `n` on
indices below `n`. -/
theorem argmax_foldl_lt (P : List ℚ) (n : ℕ) (l : List ℕ) :
    ∀ a : ℕ, a < n → (∀ x ∈ l, x < n) →
    l.foldl (fun best i => if P.getD best 0 < P.getD i 0 then i else best) 0
      = l.foldl (fun best i => if P.getD best 0 < P.getD i 0 then i else best) 0
      → l.foldl (fun best i => if P.getD best 0 < P.getD i 0 then i else best) a < n := by
  induction l with
  | nil => intro a ha _ _; exact ha
  | cons x xs ih =>
    intro a ha hl _
    rw [List.foldl_cons]
    refine ih _ ?_ (fun y hy => hl y (by simp [hy])) rfl
    by_cases hc : P.getD a 0 < P.getD x 0
    · rw [if_pos hc]; exact hl x (by simp)
    · rw [if_neg hc]; exact ha

/-- Helper: for a nonempty power list the argmax is a valid index. -/
theorem argmaxIdx_lt_length (P : List ℚ) (h : P ≠ []) :
    argmaxIdx P < P.length := by
  have hpos : 0 < P.length := List.length_pos.mpr h
  refine argmax_foldl_lt P P.length (List.range P.length) 0 hpos ?_ rfl
  intro x hx
  exact List.mem_range.mp hx

/-- C2: `calculate_hpbw` returns `None` whenever fewer than two sign changes
of `P - (max P - 3)` occur between consecutive samples — in particular for a
perfectly flat power series — and otherwise returns the absolute difference,
wrapped to the minor arc, of the angles of two distinct crossings that are
closest to the peak angle under the shortest circular distance
`min (|angle - peak|) (360 - |angle - peak|)`. -/
theorem hpbw_characterization (angles P : List ℚ) :
    ((crossIdx P).length < 2 → calculateHpbw angles P = none)
    ∧ (∀ c : ℚ, (∀ x ∈ P, x = c) → calculateHpbw angles P = none)
    ∧ (2 ≤ (crossIdx P).length →
        ∃ i j, i ∈ crossIdx P ∧ j ∈ crossIdx P ∧ i ≠ j
          ∧ (∀ k ∈ crossIdx P, circKey angles P i ≤ circKey angles P k)
          ∧ (∀ k ∈ crossIdx P, k ≠ i → circKey angles P j ≤ circKey angles P k)
          ∧ calculateHpbw angles P =
              some (if 180 < |angles.getD i 0 - angles.getD j 0|
                then 360 - |angles.getD i 0 - angles.getD j 0|
                else |angles.getD i 0 - angles.getD j 0|)) := by
  have hpart1 : (crossIdx P).length < 2 → calculateHpbw angles P = none := by
    intro h
    unfold calculateHpbw
    rw [if_pos h]
  refine ⟨hpart1, ?_, ?_⟩
  · intro c hflat
    have hval : ∀ j, j < P.length → P.getD j 0 = c := by
      intro j hj
      rw [List.getD_eq_getElem _ _ hj]
      exact hflat _ (List.getElem_mem hj)
    have hcross : crossIdx P = [] := by
      refine List.filter_eq_nil_iff.mpr ?_
      intro i hi
      simp only [List.mem_range] at hi
      have hne : P ≠ [] := by
        intro hcon
        rw [hcon] at hi
        simp at hi
      have hm := argmaxIdx_lt_length P hne
      rw [hval (i + 1) (by omega), hval i (by omega), hval (argmaxIdx P) hm]
      simp
    refine hpart1 ?_
    rw [hcross]
    simp
  · intro h2
    haveI htot : IsTotal ℕ (fun i j => circKey angles P i ≤ circKey angles P j) :=
      ⟨fun a b => le_total _ _⟩
    haveI htrans : IsTrans ℕ (fun i j => circKey angles P i ≤ circKey angles P j) :=
      ⟨fun a b c hab hbc => le_trans hab hbc⟩
    have hsorted := List.sorted_insertionSort
      (fun i j => circKey angles P i ≤ circKey angles P j) (crossIdx P)
    have hperm : List.Perm (sortedCross angles P) (crossIdx P) :=
      List.perm_insertionSort _ _
    have hlen : (sortedCross angles P).length = (crossIdx P).length :=
      hperm.length_eq
    have hsorted2 : List.Sorted (fun i j => circKey angles P i ≤ circKey angles P j)
        (sortedCross angles P) := hsorted
    have hnodcross : (crossIdx P).Nodup := (List.nodup_range _).filter _
    have hnods : (sortedCross angles P).Nodup := hperm.nodup_iff.mpr hnodcross
    cases hs : sortedCross angles P with
    | nil => rw [hs] at hlen; simp at hlen; omega
    | cons i tail =>
      cases tail with
      | nil => rw [hs] at hlen; simp at hlen; omega
      | cons j rest =>
        refine ⟨i, j, ?_, ?_, ?_, ?_, ?_, ?_⟩
        · exact hperm.mem_iff.mp (by rw [hs]; simp)
        · exact hperm.mem_iff.mp (by rw [hs]; simp)
        · rw [hs] at hnods
          have := List.nodup_cons.mp hnods
          intro hcon
          exact this.1 (by rw [hcon]; simp)
        · intro k hk
          have hks : k ∈ sortedCross angles P := hperm.mem_iff.mpr hk
          rw [hs] at hks hsorted2
          have hcons := List.sorted_cons.mp hsorted2
          rcases List.mem_cons.mp hks with hki | hkt
          · rw [hki]
          · exact hcons.1 k hkt
        · intro k hk hki
          have hks : k ∈ sortedCross angles P := hperm.mem_iff.mpr hk
          rw [hs] at hks hsorted2
          have hcons := List.sorted_cons.mp hsorted2
          have hcons2 := List.sorted_cons.mp hcons.2
          rcases List.mem_cons.mp hks with hki2 | hkt
          · exact absurd hki2 hki
          · rcases List.mem_cons.mp hkt with hkj | hkr
            · rw [hkj]
            · exact hcons2.1 k hkr
        · have hlen2 : ¬ (sortedCross angles P).length < 2 := by
            rw [hlen]; omega
          unfold calculateHpbw
          rw [if_neg (by omega), if_neg hlen2, hs]
          simp only [List.getD_cons_zero, List.getD_cons_succ]
          rcases lt_trichotomy |angles.getD i 0 - angles.getD j 0| 180 with hh | hh | hh
          · rw [if_pos hh, if_neg (by linarith)]
          · rw [if_neg (by rw [hh]; exact lt_irrefl _),
              if_neg (by rw [hh]; exact lt_irrefl _), hh]
            norm_num
          · rw [if_neg (by linarith), if_pos hh]

/-- Witness for C2 at `angles = [0, 90, 180, 270]`, `P = [0, 10, 0, 0]`: the
two crossings closest to the peak at 90 degrees. -/
theorem hpbw_characterization_witness :
    ∃ i j, i ∈ crossIdx [0, 10, 0, 0] ∧ j ∈ crossIdx [0, 10, 0, 0] ∧ i ≠ j
      ∧ (∀ k ∈ crossIdx [0, 10, 0, 0],
          circKey [0, 90, 180, 270] [0, 10, 0, 0] i
            ≤ circKey [0, 90, 180, 270] [0, 10, 0, 0] k)
      ∧ (∀ k ∈ crossIdx [0, 10, 0, 0], k ≠ i →
          circKey [0, 90, 180, 270] [0, 10, 0, 0] j
            ≤ circKey [0, 90, 180, 270] [0, 10, 0, 0] k)
      ∧ calculateHpbw [0, 90, 180, 270] [0, 10, 0, 0] =
          some (if 180 < |([0, 90, 180, 270] : List ℚ).getD i 0
              - ([0, 90, 180, 270] : List ℚ).getD j 0|
            then 360 - |([0, 90, 180, 270] : List ℚ).getD i 0
              - ([0, 90, 180, 270] : List ℚ).getD j 0|
            else |([0, 90, 180, 270] : List ℚ).getD i 0
              - ([0, 90, 180, 270] : List ℚ).getD j 0|) :=
  (hpbw_characterization [0, 90, 180, 270] [0, 10, 0, 0]).2.2
    (by norm_num [crossIdx, argmaxIdx, qsign, List.range_succ])

/-- C10: every element of the power series is at least -120 dBm, because
the power is floored at `1e-15` W before the logarithm and
`10*log10(1e-15*1000) = -120`; in particular the power series never
contains negative infinity. -/
theorem powerSeries_lower_bound (field : List ℝ) (x : ℝ)
    (hx : x ∈ powerSeries field) : -120 ≤ x := by
  obtain ⟨f, hf, rfl⟩ := List.mem_map.mp hx
  have hfloor : (1e-15 : ℝ) ≤ pWatts f := by
    unfold pWatts
    by_cases hc : pWattsRaw f < 1e-15
    · rw [if_pos hc]
    · rw [if_neg hc]; exact le_of_not_lt hc
  have hge : (1e-12 : ℝ) ≤ pWatts f * 1000 := by nlinarith
  have hlog : Real.logb 10 (1e-12 : ℝ) ≤ Real.logb 10 (pWatts f * 1000) :=
    Real.logb_le_logb_of_le (by norm_num) (by norm_num) hge
  have hval : Real.logb 10 (1e-12 : ℝ) = -12 := by
    rw [show (1e-12 : ℝ) = (10 : ℝ) ^ (-12 : ℝ) from ?_]
    · exact Real.logb_rpow (by norm_num) (by norm_num)
    · rw [Real.rpow_neg (by norm_num),
        show ((12 : ℝ)) = ((12 : ℕ) : ℝ) by norm_num, Real.rpow_natCast]
      norm_num
  unfold pDbm
  rw [hval] at hlog
  linarith

/-- Witness for C10 at the single field value 0 dBµV/m. -/
theorem powerSeries_lower_bound_witness : -120 ≤ pDbm 0 :=
  powerSeries_lower_bound [0] (pDbm 0) (by simp [powerSeries])

/-- C5: on equal-length field columns the combined TotalField has the same
length, each element is exactly `20*log10(sqrt(V1^2 + V2^2)) + 120` with
`Vi = 10^((dBi - 120)/20)`, and the argument of the logarithm is strictly
positive (so no clamping or singularity handling is needed in this step). -/
theorem combineFields_spec (f1 f2 : List ℝ) (hlen : f1.length = f2.length) :
    (combineFields f1 f2).length = f1.length
    ∧ ∀ i, i < f1.length →
        0 < Real.sqrt (dBuVmToV (f1.getD i 0) ^ 2 + dBuVmToV (f2.getD i 0) ^ 2)
        ∧ (combineFields f1 f2).getD i 0 =
            20 * Real.logb 10 (Real.sqrt (dBuVmToV (f1.getD i 0) ^ 2
              + dBuVmToV (f2.getD i 0) ^ 2)) + 120 := by
  have hzlen : (f1.zip f2).length = f1.length := by
    rw [List.length_zip]; omega
  constructor
  · unfold combineFields
    rw [List.length_map, hzlen]
  · intro i hi
    have h1 : 0 < dBuVmToV (f1.getD i 0) :=
      Real.rpow_pos_of_pos (by norm_num) _
    have hpos : 0 < Real.sqrt (dBuVmToV (f1.getD i 0) ^ 2
        + dBuVmToV (f2.getD i 0) ^ 2) := by
      apply Real.sqrt_pos.mpr
      nlinarith [sq_nonneg (dBuVmToV (f2.getD i 0))]
    refine ⟨hpos, ?_⟩
    unfold combineFields
    rw [List.getD_eq_getElem _ _ (by rw [List.length_map, hzlen]; omega),
      List.getElem_map, List.getElem_zip, List.getD_eq_getElem _ _ hi,
      List.getD_eq_getElem _ _ (by omega)]

/-- Witness for C5 at the one-element field columns `[100]` and `[94]`. -/
theorem combineFields_spec_witness :
    (combineFields [100] [94]).length = ([100] : List ℝ).length
    ∧ ∀ i, i < ([100] : List ℝ).length →
        0 < Real.sqrt (dBuVmToV (([100] : List ℝ).getD i 0) ^ 2
          + dBuVmToV (([94] : List ℝ).getD i 0) ^ 2)
        ∧ (combineFields [100] [94]).getD i 0 =
            20 * Real.logb 10 (Real.sqrt (dBuVmToV (([100] : List ℝ).getD i 0) ^ 2
              + dBuVmToV (([94] : List ℝ).getD i 0) ^ 2)) + 120 :=
  combineFields_spec [100] [94] rfl

/-- Helper: the average linear power of a nonempty power series is strictly
positive (every linear power `10^(p/10)/1000` is positive). -/
theorem avgPowerLinear_pos (P : List ℝ) (h : P ≠ []) :
    0 < avgPowerLinear P := by
  unfold avgPowerLinear listMeanR
  apply div_pos
  · apply List.sum_pos
    · intro x hx
      obtain ⟨p, hp, rfl⟩ := List.mem_map.mp hx
      unfold pLinear
      have := Real.rpow_pos_of_pos (show (0:ℝ) < 10 by norm_num) (p / 10)
      linarith
    · simp only [ne_eq, List.map_eq_nil_iff]
      exact h
  · rw [List.length_map]
    exact_mod_cast List.length_pos.mpr h

/-- C9: the efficiency statistic follows the source guard exactly — it is
`(avg_linear/iso_linear)*100` when the linear isotropic reference power is
strictly positive and 0 when that reference is nonpositive (a documented
fallback, not a crash); the dB efficiency is `10*log10(eff/100)` for
positive efficiency and explicit negative infinity (bottom of the extended
reals, never a dropped value) when the efficiency is 0.  For every real
(finite) reference in dBm the linear reference `10^(iso/10)/1000` is
strictly positive, so the zero branch corresponds to the sentinel
`-inf` dBm reference. -/
theorem efficiency_spec (P : List ℝ) (iso pIso : ℝ) (hne : P ≠ []) :
    0 < isoLinearOfDbm iso
    ∧ (0 < pIso → efficiencyPct (avgPowerLinear P) pIso
        = avgPowerLinear P / pIso * 100)
    ∧ (pIso ≤ 0 → efficiencyPct (avgPowerLinear P) pIso = 0)
    ∧ (pIso ≤ 0 → efficiencyDb (efficiencyPct (avgPowerLinear P) pIso) = ⊥)
    ∧ efficiencyDb 0 = ⊥
    ∧ (0 < pIso → 0 < efficiencyPct (avgPowerLinear P) pIso
        ∧ efficiencyDb (efficiencyPct (avgPowerLinear P) pIso)
          = ((10 * Real.logb 10 (efficiencyPct (avgPowerLinear P) pIso / 100)
              : ℝ) : EReal)) := by
  have havg : 0 < avgPowerLinear P := avgPowerLinear_pos P hne
  refine ⟨?_, ?_, ?_, ?_, ?_, ?_⟩
  · unfold isoLinearOfDbm
    have := Real.rpow_pos_of_pos (show (0:ℝ) < 10 by norm_num) (iso / 10)
    linarith
  · intro hpos
    unfold efficiencyPct
    rw [if_pos hpos]
  · intro hneg
    unfold efficiencyPct
    rw [if_neg (not_lt.mpr hneg)]
  · intro hneg
    unfold efficiencyPct efficiencyDb
    rw [if_neg (not_lt.mpr hneg), if_neg (lt_irrefl 0)]
  · unfold efficiencyDb
    rw [if_neg (lt_irrefl 0)]
  · intro hpos
    have heff : 0 < efficiencyPct (avgPowerLinear P) pIso := by
      unfold efficiencyPct
      rw [if_pos hpos]
      have := div_pos havg hpos
      linarith
    refine ⟨heff, ?_⟩
    unfold efficiencyDb
    rw [if_pos heff]

/-- Witness for C9 at the one-element power series `[0]` with reference
0 dBm (1 mW linear). -/
theorem efficiency_spec_witness :
    0 < isoLinearOfDbm 0
    ∧ (0 < (1 : ℝ) → efficiencyPct (avgPowerLinear [0]) 1
        = avgPowerLinear [0] / 1 * 100)
    ∧ ((1 : ℝ) ≤ 0 → efficiencyPct (avgPowerLinear [0]) 1 = 0)
    ∧ ((1 : ℝ) ≤ 0 → efficiencyDb (efficiencyPct (avgPowerLinear [0]) 1) = ⊥)
    ∧ efficiencyDb 0 = ⊥
    ∧ (0 < (1 : ℝ) → 0 < efficiencyPct (avgPowerLinear [0]) 1
        ∧ efficiencyDb (efficiencyPct (avgPowerLinear [0]) 1)
          = ((10 * Real.logb 10 (efficiencyPct (avgPowerLinear [0]) 1 / 100)
              : ℝ) : EReal)) :=
  efficiency_spec [0] 0 1 (by simp)

/-- Helper: a list sum as a sum over its index range. -/
theorem list_sum_eq_range_sum (l : List ℝ) :
    l.sum = ∑ i ∈ Finset.range l.length, l.getD i 0 := by
  induction l with
  | nil => simp
  | cons a xs ih =>
    rw [List.sum_cons, List.length_cons, Finset.sum_range_succ']
    simp only [List.getD_cons_succ, List.getD_cons_zero]
    rw [ih]
    ring

/-- Helper: the sum of a mapped list as a sum over the index range. -/
theorem map_sum_eq (g : ℝ → ℝ) (P : List ℝ) :
    (P.map g).sum = ∑ i ∈ Finset.range P.length, g (P.getD i 0) := by
  rw [list_sum_eq_range_sum, List.length_map]
  refine Finset.sum_congr rfl ?_
  intro i hi
  simp only [Finset.mem_range] at hi
  rw [List.getD_eq_getElem _ _ (by rw [List.length_map]; omega),
    List.getElem_map, List.getD_eq_getElem _ _ hi]

/-- Helper: the decade-per-10-dB map `t ↦ 10^(t/10)` is strictly convex,
being the exponential of a nonzero linear map. -/
theorem strictConvexOn_rpow_base10 :
    StrictConvexOn ℝ Set.univ (fun t : ℝ => (10 : ℝ) ^ (t / 10)) := by
  constructor
  · exact convex_univ
  · intro x _ y _ hxy a b ha hb hab
    have hlog : (0 : ℝ) < Real.log 10 := Real.log_pos (by norm_num)
    have harg : Real.log 10 * (x / 10) ≠ Real.log 10 * (y / 10) := by
      intro hcon
      have := mul_left_cancel₀ (ne_of_gt hlog) hcon
      apply hxy
      linarith
    have hexp := strictConvexOn_exp.2 (Set.mem_univ (Real.log 10 * (x / 10)))
      (Set.mem_univ (Real.log 10 * (y / 10))) harg ha hb hab
    simp only [smul_eq_mul] at hexp ⊢
    rw [Real.rpow_def_of_pos (by norm_num : (0:ℝ) < 10),
      Real.rpow_def_of_pos (by norm_num : (0:ℝ) < 10),
      Real.rpow_def_of_pos (by norm_num : (0:ℝ) < 10)]
    have harg2 : Real.log 10 * ((a * x + b * y) / 10)
        = a * (Real.log 10 * (x / 10)) + b * (Real.log 10 * (y / 10)) := by
      ring
    rw [harg2]
    exact hexp

/-- Helper (strict Jensen): for a non-constant power series, the average
computed in the linear power domain and re-expressed in dBm is strictly
greater than the arithmetic mean of the dBm values. -/
theorem avgDbm_gt_mean (P : List ℝ) (hnc : ∃ x ∈ P, ∃ y ∈ P, x ≠ y) :
    listMeanR P < avgDbm P := by
  have hne : P ≠ [] := by
    rintro rfl
    obtain ⟨x, hx, -⟩ := hnc
    simp at hx
  have hnpos : 0 < P.length := List.length_pos.mpr hne
  have hnR : (0:ℝ) < (P.length : ℝ) := by exact_mod_cast hnpos
  have hw : ∑ _i ∈ Finset.range P.length, ((P.length : ℝ))⁻¹ = 1 := by
    rw [Finset.sum_const, Finset.card_range, nsmul_eq_mul]
    field_simp
  have h0 : ∀ i ∈ Finset.range P.length, (0:ℝ) < ((P.length : ℝ))⁻¹ := by
    intro i _
    positivity
  have hmem : ∀ i ∈ Finset.range P.length,
      P.getD i 0 ∈ (Set.univ : Set ℝ) := fun i _ => Set.mem_univ _
  have hp : ∃ j ∈ Finset.range P.length, ∃ k ∈ Finset.range P.length,
      P.getD j 0 ≠ P.getD k 0 := by
    obtain ⟨x, hx, y, hy, hxy⟩ := hnc
    obtain ⟨j, hj, hjv⟩ := List.mem_iff_getElem.mp hx
    obtain ⟨k, hk, hkv⟩ := List.mem_iff_getElem.mp hy
    refine ⟨j, Finset.mem_range.mpr hj, k, Finset.mem_range.mpr hk, ?_⟩
    rw [List.getD_eq_getElem _ _ hj, List.getD_eq_getElem _ _ hk, hjv, hkv]
    exact hxy
  have hjensen := strictConvexOn_rpow_base10.map_sum_lt h0 hw hmem hp
  simp only [smul_eq_mul] at hjensen
  have hsum1 : ∑ i ∈ Finset.range P.length, ((P.length : ℝ))⁻¹ * P.getD i 0
      = listMeanR P := by
    rw [← Finset.mul_sum, ← list_sum_eq_range_sum]
    unfold listMeanR
    rw [inv_mul_eq_div]
  have hsum2 : ∑ i ∈ Finset.range P.length,
      ((P.length : ℝ))⁻¹ * (10 : ℝ) ^ (P.getD i 0 / 10)
      = (P.map (fun p => (10 : ℝ) ^ (p / 10))).sum / P.length := by
    have hms := map_sum_eq (fun p => (10 : ℝ) ^ (p / 10)) P
    rw [← Finset.mul_sum, ← hms, inv_mul_eq_div]
  rw [hsum1, hsum2] at hjensen
  have havg : avgPowerLinear P * 1000
      = (P.map (fun p => (10 : ℝ) ^ (p / 10))).sum / P.length := by
    unfold avgPowerLinear listMeanR
    rw [List.length_map]
    have hmap : P.map pLinear
        = P.map (fun p => (10 : ℝ) ^ (p / 10) * (1 / 1000)) := by
      refine List.map_congr_left ?_
      intro p _
      unfold pLinear
      ring
    rw [hmap, List.sum_map_mul_right]
    field_simp
    ring
  have hgpos : (0:ℝ) < (10:ℝ) ^ (listMeanR P / 10) :=
    Real.rpow_pos_of_pos (by norm_num) _
  have hlt := Real.logb_lt_logb (by norm_num : (1:ℝ) < 10) hgpos hjensen
  rw [Real.logb_rpow (by norm_num) (by norm_num)] at hlt
  unfold avgDbm
  rw [havg]
  linarith

/-- C4: the Avg (dBm) statistic is computed in the linear power domain —
each dBm value is converted to linear power `10^(p/10)/1000`, the
arithmetic mean of the linear values is taken, and the mean is converted
back as `10*log10(mean*1000)` — and for every non-constant power series
(in particular `[0, 20]`) the result differs from (indeed strictly exceeds)
the arithmetic mean of the dBm values. -/
theorem avg_linear_domain (P : List ℝ) (hnc : ∃ x ∈ P, ∃ y ∈ P, x ≠ y) :
    avgDbm P = 10 * Real.logb 10
      ((P.map (fun p => (10 : ℝ) ^ (p / 10) / 1000)).sum / P.length * 1000)
    ∧ listMeanR P < avgDbm P
    ∧ avgDbm P ≠ listMeanR P := by
  have hlt := avgDbm_gt_mean P hnc
  refine ⟨?_, hlt, ne_of_gt hlt⟩
  unfold avgDbm avgPowerLinear listMeanR pLinear
  rw [List.length_map]

/-- Witness for C4 at the two-point power series `[0, 20]` dBm. -/
theorem avg_linear_domain_witness :
    avgDbm [0, 20] = 10 * Real.logb 10
      ((([0, 20] : List ℝ).map (fun p => (10 : ℝ) ^ (p / 10) / 1000)).sum
        / ([0, 20] : List ℝ).length * 1000)
    ∧ listMeanR [0, 20] < avgDbm [0, 20]
    ∧ avgDbm [0, 20] ≠ listMeanR [0, 20] :=
  avg_linear_domain [0, 20] ⟨0, by norm_num, 20, by norm_num, by norm_num⟩

end Antenna
